import Mathlib

/-!
# GoShorten-CLI: the shared URL table, the redirect handler and the registration loop

A shallow embedding of `src/main.go`.

* A Go `string` is an immutable sequence of bytes: `GoString`.
* The global `URLStore` of type `map[string]string` is a finite map with unique keys: `Store`.
* `RedirectHandler` (lines 17-28) becomes a function of the table and of `r.URL.Path`; the
  slice expression `r.URL.Path[1:]` panics at run time when the path is empty, so the
  handler returns in `Except Panic`.
* One iteration of the `for` loop of `main` (lines 41-68) becomes `registerStep`, a function of
  the table and of the values the two `fmt.Scanln` calls left in `longURL` and `shortURL`.
* The interleaving of the goroutines around `mu` is a step function `step` on `Sys`.
-/

namespace GoShorten

/-! ## Go strings -/

/-- A Go string: a finite sequence of bytes. -/
abbrev GoString := List UInt8

/-- The Go string denoted by a string literal of the source: its UTF-8 bytes. -/
def lit (s : String) : GoString := s.toUTF8.data.toList

/-- The function `strings.HasPrefix(s, prefix)`:
`len(s) >= len(prefix) && s[:len(prefix)] == prefix`. -/
def HasPrefix (s pre : GoString) : Bool :=
  decide (pre.length ≤ s.length) && (s.take pre.length == pre)

/-- A run-time panic of the Go program. -/
inductive Panic where
  /-- slice bounds out of range -/
  | sliceBounds (low len : Nat)
  deriving DecidableEq, Repr

/-- The slice expression `s[low:]`: the bytes from index `low` on; it panics when
`low > len(s)`. -/
def sliceFrom (s : GoString) (low : Nat) : Except Panic GoString :=
  if low ≤ s.length then .ok (s.drop low) else .error (.sliceBounds low s.length)

/-- The call `fmt.Sprintf("%d", n)` for a non-negative `n`: the decimal digits of `n`.
The argument in the source is `len(URLStore)+1`, an `int` that the number of entries of a
map held in memory never brings near `2^63`, so it is a natural number here. -/
def Sprintf_d (n : Nat) : GoString := lit (Nat.repr n)

/-! ## The table `URLStore` -/

/-- The type `map[string]string`: finitely many entries, at most one per key, in no order. -/
abbrev Store := Finmap (fun _ : GoString => GoString)

/-- The initial table, `make(map[string]string)` (line 12). -/
def URLStore : Store := ∅

/-- The builtin `len(URLStore)`: the number of entries (line 59). -/
def Size (m : Store) : Nat := m.keys.card

/-- The comma-ok read `longURL, ok := URLStore[shortURL]` (line 20): the stored value and
`true`, or the zero value `""` and `false` when the key is absent. -/
def Lookup (m : Store) (id : GoString) : GoString × Bool :=
  match m.lookup id with
  | some url => (url, true)
  | none => ([], false)

/-- The assignment `URLStore[shortURL] = longURL` (line 64). -/
def Insert (m : Store) (id url : GoString) : Store := m.insert id url

/-- A sequence of inserts, applied from left to right. -/
def insertAll (m : Store) (ps : List (GoString × GoString)) : Store :=
  ps.foldl (fun acc p => Insert acc p.1 p.2) m

/-! ## The redirect handler -/

/-- The constant `http.StatusFound`. -/
def StatusFound : Nat := 302

/-- The constant `http.StatusNotFound`. -/
def StatusNotFound : Nat := 404

/-- What the handler does with the response writer: the one library call it makes. -/
inductive Response where
  /-- the call `http.Redirect(w, r, url, code)` -/
  | redirect (url : GoString) (code : Nat)
  /-- the call `http.NotFound(w, r)` -/
  | notFound
  deriving DecidableEq, Repr

/-- The status code of the reply: the code handed to `http.Redirect`, or the 404 that
`http.NotFound` writes. -/
def Response.status : Response → Nat
  | .redirect _ code => code
  | .notFound => StatusNotFound

/-- The target handed to `http.Redirect`, if any. -/
def Response.target : Response → Option GoString
  | .redirect url _ => some url
  | .notFound => none

/-- The function `RedirectHandler` (lines 17-28), on the table and on `r.URL.Path`. -/
def RedirectHandler (store : Store) (path : GoString) : Except Panic Response :=
  match sliceFrom path 1 with
  | .error e => .error e
  | .ok shortURL =>
    let (longURL, ok) := Lookup store shortURL
    if ok then .ok (.redirect longURL StatusFound) else .ok .notFound

/-! ## The registration loop -/

/-- Lines 49-51 of `main`: `https://` is put in front of a long URL that starts with
neither `http://` nor `https://`. -/
def normalise (longURL : GoString) : GoString :=
  if !HasPrefix longURL (lit "http://") && !HasPrefix longURL (lit "https://") then
    lit "https://" ++ longURL
  else
    longURL

/-- Lines 58-60 of `main`: an empty short identifier is replaced by the decimal string of
`len(URLStore)+1`. -/
def chooseShort (store : Store) (shortURL : GoString) : GoString :=
  if shortURL = [] then Sprintf_d (Size store + 1) else shortURL

/-- One iteration of the loop of `main` (lines 41-68), given the values the two `Scanln`
calls left in `longURL` and `shortURL`: the table afterwards and the identifier printed. -/
def registerStep (store : Store) (longIn shortIn : GoString) : Store × GoString :=
  let longURL := normalise longIn
  let shortURL := chooseShort store shortIn
  (Insert store shortURL longURL, shortURL)

/-- Several iterations of the loop in a row: the final table and the identifiers printed,
in order. -/
def registerAll (store : Store) : List (GoString × GoString) → Store × List GoString
  | [] => (store, [])
  | (longIn, shortIn) :: rest =>
    let r := registerStep store longIn shortIn
    let rs := registerAll r.1 rest
    (rs.1, r.2 :: rs.2)

/-- The custom identifiers of a run of registrations stay at or below the next sequential
number: at each step the identifier read is empty, or it is not the decimal string of a
number above `len(URLStore)+1` as the table stands at that step. -/
def CustomIdsBelowNext (store : Store) : List (GoString × GoString) → Prop
  | [] => True
  | (longIn, shortIn) :: rest =>
    (shortIn = [] ∨ ∀ n, shortIn = Sprintf_d n → n ≤ Size store + 1) ∧
      CustomIdsBelowNext (registerStep store longIn shortIn).1 rest

/-- Every key that is the decimal string of a number spells a number at most the size. -/
def NumeralsBounded (m : Store) : Prop := ∀ n, Sprintf_d n ∈ m → n ≤ Size m

/-- Every stored URL starts with `http://` or with `https://`. -/
def AllSchemed (m : Store) : Prop :=
  ∀ id url, m.lookup id = some url → lit "http://" <+: url ∨ lit "https://" <+: url

/-! ## Callers of the table -/

/-- An operation of a caller on the table: the insert of the loop or the lookup of the
handler. -/
inductive Op where
  | insert (id url : GoString)
  | lookup (id : GoString)
  deriving DecidableEq, Repr

/-- The effect of one operation: the table afterwards and, for a lookup, what it returned. -/
def applyOp (m : Store) : Op → Store × Option (GoString × Bool)
  | .insert id url => (Insert m id url, none)
  | .lookup id => (m, some (Lookup m id))

/-- A serialised sequence of operations: the final table and the results of the lookups. -/
def runOps (m : Store) : List Op → Store × List (GoString × Bool)
  | [] => (m, [])
  | op :: rest =>
    let r := applyOp m op
    let rs := runOps r.1 rest
    (rs.1, r.2.toList ++ rs.2)

/-- The identifiers a sequence of operations inserts, in order, with repetitions. -/
def insertedIds (ops : List Op) : List GoString :=
  ops.filterMap fun op =>
    match op with
    | .insert id _ => some id
    | .lookup _ => none

/-- Whether an operation is an insert. -/
def Op.isInsert : Op → Bool
  | .insert _ _ => true
  | .lookup _ => false

/-- The value of a string of ASCII digits, most significant digit first. -/
def decimalValue (s : GoString) : Nat := s.foldl (fun a b => 10 * a + (b.toNat - 48)) 0

/-! ## The goroutines and the mutex `mu` -/

/-- A goroutine that touches the table: the loop of `main`, or the handler serving the
`i`-th request. -/
inductive Ctx where
  | main
  | handler (i : Nat)
  deriving DecidableEq, Repr

/-- Where the loop of `main` stands. -/
inductive MainPc where
  /-- lines 42-55: the two `Scanln` calls and the normalisation between them -/
  | scan
  /-- lines 58-60: `if shortURL == "" { shortURL = fmt.Sprintf("%d", len(URLStore)+1) }` -/
  | genId
  /-- line 63: `mu.Lock()` -/
  | lock
  /-- line 64: `URLStore[shortURL] = longURL` -/
  | assign
  /-- line 65: `mu.Unlock()` -/
  | unlock
  /-- line 67: `fmt.Printf(...)` -/
  | print
  deriving DecidableEq, Repr

/-- Where a call of `RedirectHandler` stands. -/
inductive HandlerPc where
  /-- line 18: `shortURL := r.URL.Path[1:]` -/
  | slice
  /-- line 19: `mu.Lock()` -/
  | lock
  /-- line 20: `longURL, ok := URLStore[shortURL]` -/
  | read
  /-- line 21: `mu.Unlock()` -/
  | unlock
  /-- lines 23-27: the reply -/
  | reply
  /-- the call has returned -/
  | done
  /-- the call has panicked at line 18 -/
  | panicked
  deriving DecidableEq, Repr

/-- A call of `RedirectHandler` in progress: its program point and its locals. -/
structure Handler where
  pc : HandlerPc
  path : GoString
  shortURL : GoString
  longURL : GoString
  ok : Bool
  reply : Option Response

/-- The call of the handler for a new request, about to run line 18. -/
def Handler.start (path : GoString) : Handler :=
  { pc := .slice, path := path, shortURL := [], longURL := [], ok := false, reply := none }

/-- The whole program: the table, the mutex (`none` when unlocked, else the goroutine whose
`Lock` call locked it), the loop of `main` with its locals and its output, and the calls of
the handler. -/
structure Sys where
  store : Store
  mu : Option Ctx
  mainPc : MainPc
  longURL : GoString
  shortURL : GoString
  printed : List GoString
  handlers : List Handler

/-- The program at start: empty table, unlocked mutex, the loop about to read, no request. -/
def Sys.init : Sys :=
  { store := URLStore, mu := none, mainPc := .scan, longURL := [], shortURL := [],
    printed := [], handlers := [] }

/-- What moves next: the loop of `main` (with what the two `Scanln` calls would read, used
at `scan` only), the server starting the handler of a new request, or a handler. -/
inductive Event where
  | main (longIn shortIn : GoString)
  | request (path : GoString)
  | handler (i : Nat)

/-- One step of the loop of `main`; `none` when it is blocked in `mu.Lock()`, or when
`mu.Unlock()` meets an unlocked mutex (a fatal error of the Go run time). -/
def stepMain (s : Sys) (longIn shortIn : GoString) : Option Sys :=
  match s.mainPc with
  | .scan => some { s with longURL := normalise longIn, shortURL := shortIn, mainPc := .genId }
  | .genId => some { s with shortURL := chooseShort s.store s.shortURL, mainPc := .lock }
  | .lock => if s.mu = none then some { s with mu := some .main, mainPc := .assign } else none
  | .assign => some { s with store := Insert s.store s.shortURL s.longURL, mainPc := .unlock }
  | .unlock => if s.mu = none then none else some { s with mu := none, mainPc := .print }
  | .print => some { s with printed := s.printed ++ [s.shortURL], mainPc := .scan }

/-- One step of the `i`-th call of the handler, on the call `h`: the mutex, and the call
afterwards; `none` when it is blocked, has returned or has panicked. -/
def stepHandler (store : Store) (mu : Option Ctx) (i : Nat) (h : Handler) :
    Option (Option Ctx × Handler) :=
  match h.pc with
  | .slice =>
    match sliceFrom h.path 1 with
    | .ok id => some (mu, { h with shortURL := id, pc := .lock })
    | .error _ => some (mu, { h with pc := .panicked })
  | .lock => if mu = none then some (some (.handler i), { h with pc := .read }) else none
  | .read =>
    let r := Lookup store h.shortURL
    some (mu, { h with longURL := r.1, ok := r.2, pc := .unlock })
  | .unlock => if mu = none then none else some (none, { h with pc := .reply })
  | .reply =>
    let r : Response := if h.ok then .redirect h.longURL StatusFound else .notFound
    some (mu, { h with reply := some r, pc := .done })
  | .done => none
  | .panicked => none

/-- One step of the program. -/
def step (s : Sys) : Event → Option Sys
  | .main longIn shortIn => stepMain s longIn shortIn
  | .request path => some { s with handlers := s.handlers ++ [Handler.start path] }
  | .handler i =>
    match s.handlers[i]? with
    | none => none
    | some h =>
      match stepHandler s.store s.mu i h with
      | none => none
      | some (mu, h') => some { s with mu := mu, handlers := s.handlers.set i h' }

/-- A run: the events taken one after the other, `none` when one of them is not enabled. -/
def run (s : Sys) : List Event → Option Sys
  | [] => some s
  | e :: rest =>
    match step s e with
    | none => none
    | some s' => run s' rest

/-- An access to the table. -/
inductive Access where
  /-- the read `URLStore[shortURL]` of line 20 -/
  | lookup
  /-- the write `URLStore[shortURL] = longURL` of line 64 -/
  | insert
  /-- the read `len(URLStore)` of line 59 -/
  | size
  deriving DecidableEq, Repr

/-- The access to the table that an event performs in a state, and the goroutine performing
it: the loop reads the size at `genId` when `shortURL` is empty and writes at `assign`; a
handler reads at `read`. -/
def access (s : Sys) : Event → Option (Ctx × Access)
  | .main _ _ =>
    match s.mainPc with
    | .genId => if s.shortURL = [] then some (.main, .size) else none
    | .assign => some (.main, .insert)
    | _ => none
  | .request _ => none
  | .handler i =>
    match s.handlers[i]? with
    | none => none
    | some h =>
      match h.pc with
      | .read => some (.handler i, .lookup)
      | _ => none

/-- The mutex is locked by the loop exactly between its `Lock` and its `Unlock`, and by a
call of the handler exactly between that call's `Lock` and `Unlock`; a call that locked it
is one of the calls started. -/
def LockDiscipline (s : Sys) : Prop :=
  (s.mu = some .main ↔ s.mainPc = .assign ∨ s.mainPc = .unlock) ∧
  (∀ (i : Nat) (h : Handler), s.handlers[i]? = some h →
    (s.mu = some (.handler i) ↔ h.pc = .read ∨ h.pc = .unlock)) ∧
  ∀ i : Nat, s.mu = some (.handler i) → i < s.handlers.length

/-! ## Basic facts about strings and the table -/

theorem HasPrefix_iff (s pre : GoString) : HasPrefix s pre = true ↔ pre <+: s := by
  unfold HasPrefix
  rw [Bool.and_eq_true, decide_eq_true_eq, beq_iff_eq, List.prefix_iff_eq_take]
  constructor
  · rintro ⟨_, h⟩
    exact h.symm
  · intro h
    refine ⟨?_, h.symm⟩
    have := congrArg List.length h
    rw [List.length_take] at this
    omega

theorem HasPrefix_append (pre t : GoString) : HasPrefix (pre ++ t) pre = true :=
  (HasPrefix_iff _ _).2 (List.prefix_append pre t)

theorem sliceFrom_cons (b : UInt8) (rest : GoString) : sliceFrom (b :: rest) 1 = .ok rest := by
  simp [sliceFrom]

theorem sliceFrom_nil : sliceFrom [] 1 = .error (.sliceBounds 1 0) := by
  simp [sliceFrom]

theorem Lookup_of_some {m : Store} {id url : GoString} (h : m.lookup id = some url) :
    Lookup m id = (url, true) := by
  simp [Lookup, h]

theorem Lookup_of_none {m : Store} {id : GoString} (h : m.lookup id = none) :
    Lookup m id = ([], false) := by
  simp [Lookup, h]

theorem Lookup_snd_iff (m : Store) (id : GoString) : (Lookup m id).2 = true ↔ id ∈ m := by
  unfold Lookup
  cases h : m.lookup id with
  | none => simpa using Finmap.lookup_eq_none.1 h
  | some url => simpa using Finmap.mem_of_lookup_eq_some h

theorem lookup_insertAll_of_ne (later : List (GoString × GoString)) (id : GoString)
    (h : ∀ p ∈ later, p.1 ≠ id) (m : Store) :
    (insertAll m later).lookup id = m.lookup id := by
  induction later generalizing m with
  | nil => rfl
  | cons p rest ih =>
    have hp : p.1 ≠ id := h p (List.mem_cons_self _ _)
    have hrest : ∀ q ∈ rest, q.1 ≠ id := fun q hq => h q (List.mem_cons_of_mem _ hq)
    show (insertAll (Insert m p.1 p.2) rest).lookup id = m.lookup id
    rw [ih hrest, Insert, Finmap.lookup_insert_of_ne _ (Ne.symm hp)]

theorem RedirectHandler_cons (store : Store) (b : UInt8) (id : GoString) :
    RedirectHandler store (b :: id) =
      .ok (if (Lookup store id).2 then .redirect (Lookup store id).1 StatusFound
        else .notFound) := by
  unfold RedirectHandler
  rw [sliceFrom_cons]
  by_cases h : (Lookup store id).2 = true <;> simp [h]

/-! ## The decimal formatter -/

theorem Sprintf_d_eq (n : Nat) :
    Sprintf_d n = (Nat.toDigits 10 n).flatMap String.utf8EncodeChar := rfl

theorem encode_digitChar (k : Nat) (hk : k < 10) :
    String.utf8EncodeChar (Nat.digitChar k) = [UInt8.ofNat (48 + k)] := by
  interval_cases k <;> rfl

theorem foldl_toDigitsCore (fuel : Nat) : ∀ (n : Nat) (acc : List Char), n < fuel →
    ((Nat.toDigitsCore 10 fuel n acc).flatMap String.utf8EncodeChar).foldl
      (fun a b => 10 * a + (b.toNat - 48)) 0 =
    (acc.flatMap String.utf8EncodeChar).foldl (fun a b => 10 * a + (b.toNat - 48)) n := by
  induction fuel with
  | zero => intro n acc h; omega
  | succ fuel ih =>
    intro n acc h
    have hd : n % 10 < 10 := Nat.mod_lt _ (by decide)
    have hval : (UInt8.ofNat (48 + n % 10)).toNat - 48 = n % 10 := by
      generalize n % 10 = k at hd
      interval_cases k <;> rfl
    unfold Nat.toDigitsCore
    by_cases h0 : n / 10 = 0
    · simp only [h0, if_true, List.flatMap_cons, encode_digitChar _ hd, List.singleton_append,
        List.foldl_cons, hval]
      congr 1
      omega
    · simp only [h0, if_false]
      rw [ih (n / 10) _ (by omega)]
      simp only [List.flatMap_cons, encode_digitChar _ hd, List.singleton_append,
        List.foldl_cons, hval]
      congr 1
      omega

theorem decimalValue_Sprintf_d (n : Nat) : decimalValue (Sprintf_d n) = n := by
  rw [Sprintf_d_eq, decimalValue, Nat.toDigits, foldl_toDigitsCore (n + 1) n [] (by omega)]
  rfl

theorem Sprintf_d_injective : Function.Injective Sprintf_d := fun a b h => by
  have := congrArg decimalValue h
  rwa [decimalValue_Sprintf_d, decimalValue_Sprintf_d] at this

/-- A string is the decimal string of at most one number, the one its digits spell. -/
theorem eq_Sprintf_d_imp (s : GoString) (n : Nat) (h : s = Sprintf_d n) :
    n = decimalValue s := by
  rw [h, decimalValue_Sprintf_d]

/-! ## The size of the table -/

theorem keys_Insert (m : Store) (id url : GoString) :
    (Insert m id url).keys = insert id m.keys := by
  ext k
  rw [Finmap.mem_keys, Insert, Finmap.mem_insert, Finset.mem_insert, Finmap.mem_keys]

theorem Size_Insert_of_not_mem {m : Store} {id : GoString} (h : id ∉ m) (url : GoString) :
    Size (Insert m id url) = Size m + 1 := by
  rw [Size, keys_Insert, Finset.card_insert_of_not_mem (fun hk => h (Finmap.mem_keys.1 hk)), Size]

theorem Size_Insert_of_mem {m : Store} {id : GoString} (h : id ∈ m) (url : GoString) :
    Size (Insert m id url) = Size m := by
  rw [Size, keys_Insert, Finset.insert_eq_of_mem (Finmap.mem_keys.2 h), Size]

theorem Size_le_Size_Insert (m : Store) (id url : GoString) :
    Size m ≤ Size (Insert m id url) := by
  by_cases h : id ∈ m
  · rw [Size_Insert_of_mem h]
  · rw [Size_Insert_of_not_mem h]
    omega

theorem mem_Insert {m : Store} {id k url : GoString} :
    k ∈ Insert m id url ↔ k = id ∨ k ∈ m := by
  rw [Insert, Finmap.mem_insert]

theorem Insert_Insert (m : Store) (id u1 u2 : GoString) :
    Insert (Insert m id u1) id u2 = Insert m id u2 := by
  simp only [Insert, Finmap.insert_insert]

/-! ## Sequential identifiers -/

theorem NumeralsBounded_empty : NumeralsBounded URLStore := by
  intro n h
  exact absurd h Finmap.not_mem_empty

theorem NumeralsBounded_next_fresh {m : Store} (h : NumeralsBounded m) :
    Sprintf_d (Size m + 1) ∉ m := by
  intro hmem
  have := h _ hmem
  omega

theorem NumeralsBounded_step {m : Store} (h : NumeralsBounded m) (longIn shortIn : GoString)
    (hc : shortIn = [] ∨ ∀ n, shortIn = Sprintf_d n → n ≤ Size m + 1) :
    NumeralsBounded (registerStep m longIn shortIn).1 := by
  intro n hn
  show n ≤ Size (Insert m (chooseShort m shortIn) (normalise longIn))
  have hn' : Sprintf_d n = chooseShort m shortIn ∨ Sprintf_d n ∈ m := mem_Insert.1 hn
  rcases hn' with heq | hmem
  · by_cases hle : n ≤ Size m
    · exact le_trans hle (Size_le_Size_Insert _ _ _)
    · have hn1 : n = Size m + 1 := by
        by_cases hs : shortIn = []
        · rw [chooseShort, if_pos hs] at heq
          exact Sprintf_d_injective heq
        · rw [chooseShort, if_neg hs] at heq
          rcases hc with hc | hc
          · exact absurd hc hs
          · have := hc n heq.symm
            omega
      rw [← heq, Size_Insert_of_not_mem (by rw [hn1]; exact (NumeralsBounded_next_fresh h)), hn1]
  · exact le_trans (h n hmem) (Size_le_Size_Insert _ _ _)

theorem NumeralsBounded_registerAll (inputs : List (GoString × GoString)) :
    ∀ m : Store, NumeralsBounded m → CustomIdsBelowNext m inputs →
      NumeralsBounded (registerAll m inputs).1 := by
  induction inputs with
  | nil => intro m h _; exact h
  | cons p rest ih =>
    intro m h hc
    obtain ⟨longIn, shortIn⟩ := p
    exact ih _ (NumeralsBounded_step h longIn shortIn hc.1) hc.2

theorem registerStep_auto (m : Store) (longIn : GoString) :
    registerStep m longIn [] = (Insert m (Sprintf_d (Size m + 1)) (normalise longIn),
      Sprintf_d (Size m + 1)) := by
  simp [registerStep, chooseShort]

theorem registerAll_auto (longs : List GoString) :
    ∀ m : Store, NumeralsBounded m →
      (registerAll m (longs.map fun l => (l, []))).2 =
          (List.range longs.length).map (fun i => Sprintf_d (Size m + 1 + i)) ∧
        Size (registerAll m (longs.map fun l => (l, []))).1 = Size m + longs.length := by
  induction longs with
  | nil => intro m _; exact ⟨rfl, rfl⟩
  | cons l rest ih =>
    intro m h
    have hstep : NumeralsBounded (registerStep m l []).1 := NumeralsBounded_step h l [] (Or.inl rfl)
    have hsize : Size (registerStep m l []).1 = Size m + 1 := by
      rw [registerStep_auto]
      exact Size_Insert_of_not_mem (NumeralsBounded_next_fresh h) _
    obtain ⟨ih1, ih2⟩ := ih _ hstep
    rw [hsize] at ih1 ih2
    constructor
    · show (registerStep m l []).2 :: (registerAll (registerStep m l []).1
          (rest.map fun l => (l, []))).2 = _
      rw [ih1, registerStep_auto, List.length_cons, List.range_succ_eq_map, List.map_cons,
        List.map_map]
      congr 1
      apply List.map_congr_left
      intro i _
      show Sprintf_d (Size m + 1 + 1 + i) = Sprintf_d (Size m + 1 + (i + 1))
      congr 1
      omega
    · show Size (registerAll (registerStep m l []).1 (rest.map fun l => (l, []))).1 = _
      rw [ih2, List.length_cons]
      omega

/-! ## Stored URLs -/

theorem normalise_schemed (s : GoString) :
    lit "http://" <+: normalise s ∨ lit "https://" <+: normalise s := by
  unfold normalise
  by_cases h1 : HasPrefix s (lit "http://") = true
  · simp only [h1, Bool.not_true, Bool.false_and, Bool.false_eq_true, if_false]
    exact Or.inl ((HasPrefix_iff _ _).1 h1)
  · by_cases h2 : HasPrefix s (lit "https://") = true
    · simp only [h2, Bool.not_true, Bool.and_false, Bool.false_eq_true, if_false]
      exact Or.inr ((HasPrefix_iff _ _).1 h2)
    · rw [Bool.not_eq_true] at h1 h2
      simp only [h1, h2, Bool.not_false, Bool.and_self, if_true]
      exact Or.inr (List.prefix_append _ _)

theorem normalise_of_schemed {s : GoString}
    (h : lit "http://" <+: s ∨ lit "https://" <+: s) : normalise s = s := by
  unfold normalise
  rcases h with h | h
  · simp [(HasPrefix_iff _ _).2 h]
  · simp [(HasPrefix_iff _ _).2 h]

theorem AllSchemed_step {m : Store} (h : AllSchemed m) (longIn shortIn : GoString) :
    AllSchemed (registerStep m longIn shortIn).1 := by
  intro id url hl
  change (Finmap.insert (chooseShort m shortIn) (normalise longIn) m).lookup id = some url at hl
  by_cases hid : id = chooseShort m shortIn
  · rw [hid, Finmap.lookup_insert] at hl
    rw [← Option.some.inj hl]
    exact normalise_schemed longIn
  · rw [Finmap.lookup_insert_of_ne _ hid] at hl
    exact h id url hl

theorem AllSchemed_registerAll (inputs : List (GoString × GoString)) :
    ∀ m : Store, AllSchemed m → AllSchemed (registerAll m inputs).1 := by
  induction inputs with
  | nil => intro m h; exact h
  | cons p rest ih =>
    intro m h
    obtain ⟨longIn, shortIn⟩ := p
    exact ih _ (AllSchemed_step h longIn shortIn)

/-! ## Sequences of operations -/

theorem keys_runOps (ops : List Op) :
    ∀ m : Store, (runOps m ops).1.keys = m.keys ∪ (insertedIds ops).toFinset := by
  induction ops with
  | nil => intro m; simp [runOps, insertedIds]
  | cons op rest ih =>
    intro m
    show (runOps (applyOp m op).1 rest).1.keys = _
    rw [ih]
    cases op with
    | insert id url =>
      show (Insert m id url).keys ∪ _ = m.keys ∪ (id :: insertedIds rest).toFinset
      rw [keys_Insert, List.toFinset_cons]
      ext k
      simp only [Finset.mem_union, Finset.mem_insert]
      tauto
    | lookup id => rfl

theorem runOps_filter (ops : List Op) :
    ∀ m : Store, (runOps m ops).1 = (runOps m (ops.filter Op.isInsert)).1 := by
  induction ops with
  | nil => intro m; rfl
  | cons op rest ih =>
    intro m
    cases op with
    | insert id url =>
      show (runOps (Insert m id url) rest).1 = _
      rw [ih]
      rfl
    | lookup id =>
      show (runOps m rest).1 = _
      rw [ih]
      rfl

/-! ## The claims -/

/-- C1: in every table, after `Insert(id, url)` and then any finite sequence of inserts none
of whose identifiers is `id`, `Lookup(id)` returns `(url, true)`. -/
theorem lookup_after_insert_then_others (store : Store) (id url : GoString)
    (later : List (GoString × GoString)) (h : ∀ p ∈ later, p.1 ≠ id) :
    Lookup (insertAll (Insert store id url) later) id = (url, true) := by
  apply Lookup_of_some
  rw [lookup_insertAll_of_ne later id h, Insert, Finmap.lookup_insert]

/-- C1 at a concrete input: a table holding `abc`, a fresh insert for `abc`, then two
inserts for other identifiers. -/
theorem lookup_after_insert_then_others_witness :
    (∀ p ∈ [(lit "x", lit "https://x.org"), (lit "1", lit "https://y.org")], p.1 ≠ lit "abc") ∧
    Lookup (insertAll (Insert (Insert URLStore (lit "abc") (lit "http://old.example"))
        (lit "abc") (lit "https://example.com"))
      [(lit "x", lit "https://x.org"), (lit "1", lit "https://y.org")]) (lit "abc")
      = (lit "https://example.com", true) :=
  ⟨by decide, lookup_after_insert_then_others _ _ _ _ (by decide)⟩

/-- C2: in every table, after `Insert(id, u1)` and then `Insert(id, u2)`, `Lookup(id)`
returns `(u2, true)`: the insert overwrites the entry and the second write wins; the two
inserts leave the same table as the second alone. -/
theorem second_insert_wins (store : Store) (id u1 u2 : GoString) :
    Lookup (Insert (Insert store id u1) id u2) id = (u2, true) ∧
    Insert (Insert store id u1) id u2 = Insert store id u2 := by
  constructor
  · apply Lookup_of_some
    rw [Insert, Finmap.lookup_insert]
  · simp only [Insert, Finmap.insert_insert]

/-- C3: for a request path `/` followed by `id`, the handler answers 302 with the URL stored
for `id` as target when `id` is a key of the table, and 404 when it is not, in particular
in the table nothing was inserted into; after inserting `("abc", "https://example.com")`
into the empty table, `/abc` gives 302 to `https://example.com` and `/xyz` gives 404. -/
theorem RedirectHandler_found_or_404 :
    (∀ (store : Store) (id url : GoString), store.lookup id = some url →
      RedirectHandler store (lit "/" ++ id) = .ok (.redirect url 302)) ∧
    (∀ (store : Store) (id : GoString), id ∈ store →
      ∃ url, store.lookup id = some url ∧
        RedirectHandler store (lit "/" ++ id) = .ok (.redirect url 302) ∧
        (Response.redirect url 302).status = 302) ∧
    (∀ (store : Store) (id : GoString), id ∉ store →
      RedirectHandler store (lit "/" ++ id) = .ok .notFound ∧ Response.notFound.status = 404) ∧
    (∀ id : GoString, RedirectHandler URLStore (lit "/" ++ id) = .ok .notFound) ∧
    RedirectHandler (Insert URLStore (lit "abc") (lit "https://example.com")) (lit "/abc")
      = .ok (.redirect (lit "https://example.com") 302) ∧
    RedirectHandler (Insert URLStore (lit "abc") (lit "https://example.com")) (lit "/xyz")
      = .ok .notFound := by
  have hslash : lit "/" = [47] := by decide
  have hfound : ∀ (store : Store) (id url : GoString), store.lookup id = some url →
      RedirectHandler store (lit "/" ++ id) = .ok (.redirect url 302) := by
    intro store id url h
    rw [hslash, List.singleton_append, RedirectHandler_cons, Lookup_of_some h]
    rfl
  have hmiss : ∀ (store : Store) (id : GoString), id ∉ store →
      RedirectHandler store (lit "/" ++ id) = .ok .notFound := by
    intro store id h
    rw [hslash, List.singleton_append, RedirectHandler_cons,
      Lookup_of_none (Finmap.lookup_eq_none.2 h)]
    rfl
  refine ⟨hfound, ?_, fun store id h => ⟨hmiss store id h, rfl⟩, ?_, ?_, ?_⟩
  · intro store id h
    obtain ⟨url, hurl⟩ := Finmap.mem_iff.1 h
    exact ⟨url, hurl, hfound store id url hurl, rfl⟩
  · intro id
    exact hmiss URLStore id (Finmap.not_mem_empty)
  · exact hfound _ _ _ (by decide)
  · exact hmiss _ _ (by decide)

/-- C4, refuted as stated: on the empty path the slice expression `r.URL.Path[1:]` panics
(slice bounds out of range), so the extraction fails and the handler produces no reply. -/
theorem extraction_panics_on_empty_path :
    sliceFrom (lit "") 1 = .error (.sliceBounds 1 0) ∧
    RedirectHandler URLStore (lit "") = .error (.sliceBounds 1 0) := by
  exact ⟨rfl, rfl⟩

/-- C4, amended: for every non-empty path the extraction does not fail and yields the path
without its first byte, nothing decoded and nothing trimmed, and the handler replies. -/
theorem extraction_on_nonempty_path (path : GoString) (h : path ≠ []) :
    sliceFrom path 1 = .ok (path.drop 1) ∧
    (∀ (b : UInt8) (rest : GoString), path = b :: rest → sliceFrom path 1 = .ok rest) ∧
    ∀ store : Store, ∃ r, RedirectHandler store path = .ok r := by
  obtain ⟨b, rest, rfl⟩ := List.exists_cons_of_ne_nil h
  refine ⟨sliceFrom_cons b rest, ?_, fun store => ⟨_, RedirectHandler_cons store b rest⟩⟩
  intro b' rest' hb
  rw [sliceFrom_cons]
  exact congrArg _ (List.cons_eq_cons.1 hb).2

/-- C4 amended, at the path `/a%20b?` : the identifier is `a%20b?`, byte for byte. -/
theorem extraction_on_nonempty_path_witness :
    lit "/a%20b?" ≠ [] ∧ sliceFrom (lit "/a%20b?") 1 = .ok (lit "a%20b?") :=
  ⟨by decide, (extraction_on_nonempty_path (lit "/a%20b?") (by decide)).1⟩

/-- C5: the normalisation returns its input unchanged when it starts with `http://` or with
`https://`, and `https://` followed by the input otherwise; `example.com` becomes
`https://example.com`, `http://example.com` and `https://example.com` stay as they are. -/
theorem normalise_spec :
    (∀ s : GoString, (lit "http://" <+: s ∨ lit "https://" <+: s) → normalise s = s) ∧
    (∀ s : GoString, ¬ (lit "http://" <+: s ∨ lit "https://" <+: s) →
      normalise s = lit "https://" ++ s) ∧
    normalise (lit "example.com") = lit "https://example.com" ∧
    normalise (lit "http://example.com") = lit "http://example.com" ∧
    normalise (lit "https://example.com") = lit "https://example.com" := by
  refine ⟨?_, ?_, by decide, by decide, by decide⟩
  · intro s h
    unfold normalise
    rcases h with h | h
    · simp [(HasPrefix_iff _ _).2 h]
    · simp [(HasPrefix_iff _ _).2 h]
  · intro s h
    unfold normalise
    have h1 : HasPrefix s (lit "http://") = false := by
      rw [← Bool.not_eq_true, HasPrefix_iff]
      exact fun hp => h (Or.inl hp)
    have h2 : HasPrefix s (lit "https://") = false := by
      rw [← Bool.not_eq_true, HasPrefix_iff]
      exact fun hp => h (Or.inr hp)
    simp [h1, h2]

/-- C6: with an empty short identifier the registration step uses the decimal string of
`len(URLStore)+1`; from the empty table, `k` consecutive registrations with an empty short
identifier are given `"1"`, `"2"`, ..., `"k"` in that order and leave `k` entries, for
every `k ≥ 1` (and for `k = 0`, where nothing is registered). -/
theorem auto_identifiers_sequential (k : Nat) (longs : List GoString)
    (hlen : longs.length = k) :
    (∀ (store : Store) (longIn : GoString),
      (registerStep store longIn []).2 = Sprintf_d (Size store + 1)) ∧
    (registerAll URLStore (longs.map fun l => (l, []))).2 =
      (List.range k).map (fun i => Sprintf_d (i + 1)) ∧
    Size (registerAll URLStore (longs.map fun l => (l, []))).1 = k ∧
    Sprintf_d 1 = lit "1" ∧ Sprintf_d 2 = lit "2" ∧ Sprintf_d 10 = lit "10" := by
  have hsize0 : Size URLStore = 0 := rfl
  obtain ⟨h1, h2⟩ := registerAll_auto longs URLStore NumeralsBounded_empty
  refine ⟨fun store longIn => by rw [registerStep_auto], ?_, ?_, by decide, by decide,
    by decide⟩
  · rw [h1, hlen, hsize0]
    apply List.map_congr_left
    intro i _
    rw [Nat.zero_add, Nat.add_comm]
  · rw [h2, hlen, hsize0, Nat.zero_add]

/-- C6 at `k = 3`: three registrations with an empty short identifier are given `"1"`,
`"2"`, `"3"` and leave three entries. -/
theorem auto_identifiers_sequential_witness :
    [lit "a.example", lit "http://b.example", lit ""].length = 3 ∧
    (registerAll URLStore
      ([lit "a.example", lit "http://b.example", lit ""].map fun l => (l, []))).2 =
      [lit "1", lit "2", lit "3"] ∧
    Size (registerAll URLStore
      ([lit "a.example", lit "http://b.example", lit ""].map fun l => (l, []))).1 = 3 :=
  have h := auto_identifiers_sequential 3 [lit "a.example", lit "http://b.example", lit ""]
    rfl
  ⟨rfl, h.2.1.trans (by decide), h.2.2.1⟩

/-- C7, refuted as stated: after the one registration of `a.example` under the custom
identifier `2`, the table has one entry, so the identifier derived from the size is `2`,
which is a key already; the next registration with an empty identifier overwrites that
entry and the table still has one entry. -/
theorem auto_identifier_collides :
    Sprintf_d (Size (registerAll URLStore [(lit "a.example", lit "2")]).1 + 1) ∈
      (registerAll URLStore [(lit "a.example", lit "2")]).1 ∧
    Lookup (registerAll URLStore [(lit "a.example", lit "2")]).1 (lit "2") =
      (lit "https://a.example", true) ∧
    registerStep (registerAll URLStore [(lit "a.example", lit "2")]).1 (lit "b.example") [] =
      (Insert URLStore (lit "2") (lit "https://b.example"), lit "2") ∧
    Size (registerAll URLStore [(lit "a.example", lit "2"), (lit "b.example", [])]).1 = 1 := by
  refine ⟨?_, by decide, ?_, by decide⟩
  · rw [← Lookup_snd_iff]
    decide
  · rw [registerStep_auto]
    refine Prod.ext ?_ (by decide)
    show Insert (Insert URLStore _ _) _ _ = _
    have h2 : Sprintf_d (Size (registerAll URLStore [(lit "a.example", lit "2")]).1 + 1) =
        lit "2" := by decide
    have h3 : chooseShort URLStore (lit "2") = lit "2" := by decide
    have h4 : normalise (lit "b.example") = lit "https://b.example" := by decide
    rw [h2, h3, h4]
    exact Insert_Insert _ _ _ _

/-- C7, amended: in every table reached from the empty one by registration steps whose
custom identifiers are never the decimal string of a number above the size of the table at
that step plus one, the decimal string of size + 1 is not a key, and a registration with an
empty identifier adds an entry and leaves every existing entry as it was. -/
theorem auto_identifier_fresh (inputs : List (GoString × GoString))
    (h : CustomIdsBelowNext URLStore inputs) :
    Sprintf_d (Size (registerAll URLStore inputs).1 + 1) ∉ (registerAll URLStore inputs).1 ∧
    ∀ longIn : GoString,
      Size (registerStep (registerAll URLStore inputs).1 longIn []).1 =
        Size (registerAll URLStore inputs).1 + 1 ∧
      ∀ id ∈ (registerAll URLStore inputs).1,
        (registerStep (registerAll URLStore inputs).1 longIn []).1.lookup id =
          (registerAll URLStore inputs).1.lookup id := by
  have hb := NumeralsBounded_registerAll inputs URLStore NumeralsBounded_empty h
  refine ⟨(NumeralsBounded_next_fresh hb), fun longIn => ?_⟩
  rw [registerStep_auto]
  refine ⟨Size_Insert_of_not_mem (NumeralsBounded_next_fresh hb) _, fun id hid => ?_⟩
  have hne : id ≠ Sprintf_d (Size (registerAll URLStore inputs).1 + 1) := by
    rintro rfl
    exact (NumeralsBounded_next_fresh hb) hid
  exact Finmap.lookup_insert_of_ne _ hne

/-- C7 amended, at a run with an automatic identifier, the custom identifiers `go` and `2`
(the next sequential number at that step is 3) and another automatic one. -/
theorem auto_identifier_fresh_witness :
    CustomIdsBelowNext URLStore [(lit "a.example", []), (lit "b.example", lit "go"),
      (lit "c.example", lit "2"), (lit "d.example", [])] ∧
    Sprintf_d (Size (registerAll URLStore [(lit "a.example", []), (lit "b.example", lit "go"),
      (lit "c.example", lit "2"), (lit "d.example", [])]).1 + 1) ∉
      (registerAll URLStore [(lit "a.example", []), (lit "b.example", lit "go"),
      (lit "c.example", lit "2"), (lit "d.example", [])]).1 :=
  have hc : CustomIdsBelowNext URLStore [(lit "a.example", []), (lit "b.example", lit "go"),
      (lit "c.example", lit "2"), (lit "d.example", [])] := by
    refine ⟨Or.inl rfl, Or.inr ?_, Or.inr ?_, Or.inl rfl, trivial⟩
    · intro n hn
      have h1 := eq_Sprintf_d_imp _ _ hn
      have h2 : decimalValue (lit "go") = 613 := by decide
      rw [h1, h2] at hn
      exact absurd hn (by decide)
    · intro n hn
      have h1 := eq_Sprintf_d_imp _ _ hn
      have h2 : decimalValue (lit "2") = 2 := by decide
      rw [h1, h2]
      decide
  ⟨hc, (auto_identifier_fresh _ hc).1⟩

/-- C8: for every finite sequence of inserts and lookups applied to the empty table, the
final size is the number of distinct identifiers inserted, every inserted identifier is
found in the final table, and the lookups leave the table as it is: the final table is the
one the inserts alone produce. -/
theorem no_lost_update (ops : List Op) :
    Size (runOps URLStore ops).1 = (insertedIds ops).toFinset.card ∧
    (∀ id ∈ insertedIds ops, (Lookup (runOps URLStore ops).1 id).2 = true) ∧
    (∀ (m : Store) (id : GoString), (applyOp m (.lookup id)).1 = m) ∧
    (runOps URLStore ops).1 = (runOps URLStore (ops.filter Op.isInsert)).1 := by
  have hkeys := keys_runOps ops URLStore
  have hempty : URLStore.keys = ∅ := rfl
  rw [hempty, Finset.empty_union] at hkeys
  refine ⟨by rw [Size, hkeys], fun id hid => ?_, fun _ _ => rfl, runOps_filter ops URLStore⟩
  rw [Lookup_snd_iff, ← Finmap.mem_keys, hkeys]
  exact List.mem_toFinset.2 hid

/-- C10: in every table reached from the empty one by registration steps every stored URL
starts with `http://` or `https://`, so does every redirect target of the handler; an empty
long URL is stored as `https://`; the normalisation is idempotent and its output always
starts with one of the two prefixes. -/
theorem stored_urls_carry_scheme :
    (∀ (inputs : List (GoString × GoString)) (id url : GoString),
      (registerAll URLStore inputs).1.lookup id = some url →
        lit "http://" <+: url ∨ lit "https://" <+: url) ∧
    (∀ (inputs : List (GoString × GoString)) (path url : GoString) (code : Nat),
      RedirectHandler (registerAll URLStore inputs).1 path = .ok (.redirect url code) →
        lit "http://" <+: url ∨ lit "https://" <+: url) ∧
    normalise (lit "") = lit "https://" ∧
    Lookup (registerStep URLStore (lit "") (lit "x")).1 (lit "x") = (lit "https://", true) ∧
    (∀ s : GoString, normalise (normalise s) = normalise s) ∧
    (∀ s : GoString, lit "http://" <+: normalise s ∨ lit "https://" <+: normalise s) := by
  have hall : ∀ inputs : List (GoString × GoString), AllSchemed (registerAll URLStore inputs).1 :=
    fun inputs => AllSchemed_registerAll inputs URLStore (fun id url hl => by
      rw [URLStore, Finmap.lookup_empty] at hl
      cases hl)
  refine ⟨fun inputs => hall inputs, ?_, by decide, by decide,
    fun s => normalise_of_schemed (normalise_schemed s), normalise_schemed⟩
  intro inputs path url code hr
  cases path with
  | nil => rw [RedirectHandler, sliceFrom_nil] at hr; cases hr
  | cons b id =>
    rw [RedirectHandler_cons] at hr
    cases hl : (registerAll URLStore inputs).1.lookup id with
    | none =>
      rw [Lookup_of_none hl] at hr
      simp at hr
    | some u =>
      rw [Lookup_of_some hl] at hr
      simp only [if_true, Except.ok.injEq, Response.redirect.injEq] at hr
      rw [← hr.1]
      exact hall inputs id u hl


/-! ## The lock discipline of the step model -/

theorem LockDiscipline_init : LockDiscipline Sys.init := by
  refine ⟨by simp [Sys.init], ?_, by simp [Sys.init]⟩
  intro i h hh
  simp [Sys.init] at hh

theorem LockDiscipline_stepMain {s s' : Sys} (longIn shortIn : GoString)
    (hinv : LockDiscipline s) (hs : stepMain s longIn shortIn = some s') :
    LockDiscipline s' := by
  obtain ⟨store, mu, pc, l, sh, pr, hd⟩ := s
  obtain ⟨hmain, hhand, hlen⟩ := hinv
  simp only at hmain hhand hlen
  cases pc <;> simp only [stepMain] at hs
  · cases hs
    refine ⟨?_, hhand, hlen⟩
    simpa using hmain
  · cases hs
    refine ⟨?_, hhand, hlen⟩
    simpa using hmain
  · split at hs
    · rename_i hmu
      cases hs
      subst hmu
      refine ⟨by simp, ?_, by simp⟩
      intro i h hh
      have := hhand i h hh
      simpa using this
    · cases hs
  · cases hs
    refine ⟨?_, hhand, hlen⟩
    simpa using hmain
  · split at hs
    · cases hs
    · cases hs
      have hmu : mu = some Ctx.main := by simpa using hmain
      subst hmu
      refine ⟨by simp, ?_, by simp⟩
      intro i h hh
      have := hhand i h hh
      simpa using this
  · cases hs
    refine ⟨?_, hhand, hlen⟩
    simpa using hmain

theorem LockDiscipline_request {s : Sys} (path : GoString) (hinv : LockDiscipline s) :
    LockDiscipline { s with handlers := s.handlers ++ [Handler.start path] } := by
  obtain ⟨hmain, hhand, hlen⟩ := hinv
  refine ⟨hmain, ?_, ?_⟩
  · intro i h hh
    simp only at hh
    by_cases hi : i < s.handlers.length
    · rw [List.getElem?_append_left hi] at hh
      exact hhand i h hh
    · rw [List.getElem?_append_right (by omega)] at hh
      cases hk : i - s.handlers.length with
      | zero =>
        rw [hk] at hh
        simp only [List.getElem?_cons_zero, Option.some.injEq] at hh
        subst hh
        simp only [Handler.start]
        constructor
        · intro hmu
          exact absurd (hlen i hmu) hi
        · intro hc
          rcases hc with hc | hc <;> cases hc
      | succ k =>
        rw [hk] at hh
        simp at hh
  · intro i hmu
    have := hlen i hmu
    simp only [List.length_append, List.length_singleton]
    omega

theorem LockDiscipline_stepHandler {s : Sys} {i : Nat} {h h' : Handler} {mu' : Option Ctx}
    (hinv : LockDiscipline s) (hi : s.handlers[i]? = some h)
    (hs : stepHandler s.store s.mu i h = some (mu', h')) :
    LockDiscipline { s with mu := mu', handlers := s.handlers.set i h' } := by
  obtain ⟨hmain, hhand, hlen⟩ := hinv
  have hilt : i < s.handlers.length := (List.getElem?_eq_some.1 hi).1
  have hself := hhand i h hi
  -- the other calls keep their program point
  have hother : ∀ (j : Nat) (g : Handler), (s.handlers.set i h')[j]? = some g →
      (j = i ∧ g = h') ∨ (j ≠ i ∧ s.handlers[j]? = some g) := by
    intro j g hg
    rw [List.getElem?_set] at hg
    by_cases hij : i = j
    · rw [if_pos hij, if_pos hilt] at hg
      exact Or.inl ⟨hij.symm, (Option.some.inj hg).symm⟩
    · rw [if_neg hij] at hg
      exact Or.inr ⟨fun hc => hij hc.symm, hg⟩
  have hlen' : ∀ k : Nat, k < s.handlers.length → k < (s.handlers.set i h').length := by
    intro k hk
    rwa [List.length_set]
  obtain ⟨pc, path, sh, lg, ok, rp⟩ := h
  simp only at hself
  cases pc <;> simp only [stepHandler] at hs
  · -- slice
    have hpc : h'.pc = .lock ∨ h'.pc = .panicked := by
      split at hs <;> cases hs <;> simp
    have hmu : mu' = s.mu := by
      split at hs <;> cases hs <;> rfl
    subst hmu
    refine ⟨hmain, ?_, fun k hk => hlen' k (hlen k hk)⟩
    intro j g hg
    rcases hother j g hg with ⟨rfl, rfl⟩ | ⟨_, hj⟩
    · simp only
      constructor
      · intro hmu
        exact absurd (hself.1 hmu) (by simp)
      · intro hc
        rcases hpc with hp | hp <;> rw [hp] at hc <;> simp at hc
    · exact hhand j g hj
  · -- lock
    split at hs
    · rename_i hmu
      cases hs
      rw [hmu] at hmain hhand
      refine ⟨?_, ?_, ?_⟩
      · simpa using hmain
      · intro j g hg
        rcases hother j g hg with ⟨rfl, rfl⟩ | ⟨hne, hj⟩
        · simp
        · have := hhand j g hj
          simp only [Option.some.injEq, Ctx.handler.injEq]
          constructor
          · intro hc
            exact absurd hc.symm hne
          · intro hc
            exact absurd (this.2 hc) (by simp)
      · intro k hk
        simp only [Option.some.injEq, Ctx.handler.injEq] at hk
        exact hlen' k (hk ▸ hilt)
    · cases hs
  · -- read
    cases hs
    refine ⟨hmain, ?_, fun k hk => hlen' k (hlen k hk)⟩
    intro j g hg
    rcases hother j g hg with ⟨rfl, rfl⟩ | ⟨_, hj⟩
    · simpa using hself
    · exact hhand j g hj
  · -- unlock
    split at hs
    · cases hs
    · cases hs
      have hmu : s.mu = some (Ctx.handler i) := by simpa using hself
      rw [hmu] at hmain hhand
      refine ⟨?_, ?_, by simp⟩
      · simpa using hmain
      · intro j g hg
        rcases hother j g hg with ⟨rfl, rfl⟩ | ⟨hne, hj⟩
        · simp
        · have := hhand j g hj
          simp only [Option.some.injEq, Ctx.handler.injEq] at this
          constructor
          · intro hc
            cases hc
          · intro hc
            exact absurd (this.2 hc).symm hne
  · -- reply
    cases hs
    refine ⟨hmain, ?_, fun k hk => hlen' k (hlen k hk)⟩
    intro j g hg
    rcases hother j g hg with ⟨rfl, rfl⟩ | ⟨_, hj⟩
    · simpa using hself
    · exact hhand j g hj
  · cases hs
  · cases hs

theorem LockDiscipline_step {s s' : Sys} (e : Event) (hinv : LockDiscipline s)
    (hs : step s e = some s') : LockDiscipline s' := by
  cases e with
  | main longIn shortIn => exact LockDiscipline_stepMain longIn shortIn hinv hs
  | request path =>
    simp only [step, Option.some.injEq] at hs
    rw [← hs]
    exact LockDiscipline_request path hinv
  | handler i =>
    simp only [step] at hs
    cases hi : s.handlers[i]? with
    | none => rw [hi] at hs; cases hs
    | some h =>
      rw [hi] at hs
      simp only at hs
      cases hsh : stepHandler s.store s.mu i h with
      | none => rw [hsh] at hs; cases hs
      | some r =>
        obtain ⟨mu', h'⟩ := r
        rw [hsh] at hs
        simp only [Option.some.injEq] at hs
        rw [← hs]
        exact LockDiscipline_stepHandler hinv hi hsh

theorem LockDiscipline_run (events : List Event) :
    ∀ s s' : Sys, LockDiscipline s → run s events = some s' → LockDiscipline s' := by
  induction events with
  | nil =>
    intro s s' hinv hr
    simp only [run, Option.some.injEq] at hr
    rw [← hr]
    exact hinv
  | cons e rest ih =>
    intro s s' hinv hr
    simp only [run] at hr
    cases hs : step s e with
    | none => rw [hs] at hr; cases hr
    | some s1 =>
      rw [hs] at hr
      exact ih s1 s' (LockDiscipline_step e hinv hs) hr


/-- One full iteration of the loop in the step model, started with the mutex unlocked, leaves
the table and prints the identifier that `registerStep` computes. -/
theorem run_main_iteration (s : Sys) (longIn shortIn : GoString) (hpc : s.mainPc = .scan)
    (hmu : s.mu = none) :
    run s [.main longIn shortIn, .main [] [], .main [] [], .main [] [], .main [] [],
        .main [] []] =
      some { s with
        store := (registerStep s.store longIn shortIn).1
        longURL := normalise longIn
        shortURL := (registerStep s.store longIn shortIn).2
        printed := s.printed ++ [(registerStep s.store longIn shortIn).2] } := by
  obtain ⟨store, mu, pc, l, sh, pr, hd⟩ := s
  simp only at hpc hmu
  subst hpc hmu
  simp [run, step, stepMain, registerStep]

/-- One call of the handler in the step model, started with no other call and the mutex
unlocked, leaves the table as it is, releases the mutex and replies what `RedirectHandler`
computes. -/
theorem run_handler_call (s : Sys) (path : GoString) (r : Response) (hh : s.handlers = [])
    (hmu : s.mu = none) (hr : RedirectHandler s.store path = .ok r) :
    (run s [.request path, .handler 0, .handler 0, .handler 0, .handler 0, .handler 0]).map
        (fun s' => (s'.store, s'.mu, s'.handlers.map fun h => (h.pc, h.reply))) =
      some (s.store, none, [(.done, some r)]) := by
  obtain ⟨store, mu, pc, l, sh, pr, hd⟩ := s
  simp only at hh hmu hr
  subst hh hmu
  cases path with
  | nil => rw [RedirectHandler, sliceFrom_nil] at hr; cases hr
  | cons b id =>
    rw [RedirectHandler_cons] at hr
    simp only [Except.ok.injEq] at hr
    subst hr
    simp [run, step, stepHandler, Handler.start, sliceFrom_cons]

/-! ## The claim about the mutex -/

/-- C9, refuted as stated: in the run where the loop has read `example.com` and an empty
short identifier, its next step reads `len(URLStore)` while the mutex is unlocked; and in
the run where the handler of the request `/x` has locked the mutex first, the loop takes
that same step, reading the size of the table while the handler holds the mutex. -/
theorem size_read_without_lock :
    (run Sys.init [.main (lit "example.com") (lit "")]).map
        (fun s => (access s (.main [] []), s.mu, (step s (.main [] [])).isSome)) =
      some (some (.main, .size), none, true) ∧
    (run Sys.init [.request (lit "/x"), .handler 0, .handler 0,
        .main (lit "example.com") (lit "")]).map
        (fun s => (access s (.main [] []), s.mu, (step s (.main [] [])).isSome)) =
      some (some (.main, .size), some (.handler 0), true) := by
  constructor <;> decide

/-- C9, amended: in every state the program reaches, the goroutine about to perform the
lookup of line 20 or the insert of line 64 holds the mutex. -/
theorem lookup_and_insert_hold_lock (events : List Event) (s : Sys) (e : Event) (c : Ctx)
    (a : Access) (hrun : run Sys.init events = some s) (hacc : access s e = some (c, a))
    (ha : a ≠ .size) : s.mu = some c := by
  obtain ⟨hmain, hhand, _⟩ := LockDiscipline_run events Sys.init s LockDiscipline_init hrun
  cases e with
  | main longIn shortIn =>
    simp only [access] at hacc
    cases hpc : s.mainPc with
    | genId =>
      rw [hpc] at hacc
      simp only at hacc
      split at hacc
      · simp only [Option.some.injEq, Prod.mk.injEq] at hacc
        exact absurd hacc.2.symm ha
      · cases hacc
    | assign =>
      rw [hpc] at hacc
      simp only [Option.some.injEq, Prod.mk.injEq] at hacc
      rw [← hacc.1]
      exact hmain.2 (Or.inl hpc)
    | scan => rw [hpc] at hacc; cases hacc
    | lock => rw [hpc] at hacc; cases hacc
    | unlock => rw [hpc] at hacc; cases hacc
    | print => rw [hpc] at hacc; cases hacc
  | request path => simp [access] at hacc
  | handler i =>
    simp only [access] at hacc
    cases hi : s.handlers[i]? with
    | none => rw [hi] at hacc; cases hacc
    | some h =>
      rw [hi] at hacc
      simp only at hacc
      cases hpc : h.pc with
      | read =>
        rw [hpc] at hacc
        simp only [Option.some.injEq, Prod.mk.injEq] at hacc
        rw [← hacc.1]
        exact (hhand i h hi).2 (Or.inl hpc)
      | slice => rw [hpc] at hacc; cases hacc
      | lock => rw [hpc] at hacc; cases hacc
      | unlock => rw [hpc] at hacc; cases hacc
      | reply => rw [hpc] at hacc; cases hacc
      | done => rw [hpc] at hacc; cases hacc
      | panicked => rw [hpc] at hacc; cases hacc

/-- C9 amended, at the run where the handler of the request `/abc` has sliced the path and
locked the mutex: it is about to read the table and holds the mutex. -/
theorem lookup_and_insert_hold_lock_witness :
    run Sys.init [.request (lit "/abc"), .handler 0, .handler 0] =
      some ⟨URLStore, some (.handler 0), .scan, [], [], [],
        [⟨.read, lit "/abc", lit "abc", [], false, none⟩]⟩ ∧
    access ⟨URLStore, some (.handler 0), .scan, [], [], [],
        [⟨.read, lit "/abc", lit "abc", [], false, none⟩]⟩ (.handler 0) =
      some (.handler 0, .lookup) ∧
    Access.lookup ≠ Access.size ∧
    (Sys.mk URLStore (some (.handler 0)) .scan [] [] []
        [⟨.read, lit "/abc", lit "abc", [], false, none⟩]).mu = some (.handler 0) :=
  ⟨rfl, rfl, by decide,
    lookup_and_insert_hold_lock [.request (lit "/abc"), .handler 0, .handler 0]
      ⟨URLStore, some (.handler 0), .scan, [], [], [],
        [⟨.read, lit "/abc", lit "abc", [], false, none⟩]⟩
      (.handler 0) (.handler 0) .lookup rfl rfl (by decide)⟩

end GoShorten
